import Mathlib

/-!
Verification of the base64-variant codec, registry, policy and rounds-handler
behaviour of the passlib core bundled with this repository.

The codec definitions are a shallow embedding of
`src/lib/passlib/utils/binary.py` (class `Base64Engine`).  Byte strings are
modelled as `List Nat` (each element a byte value), encoded text as `List Nat`
of character codes, Python exceptions as an explicit error type, and Python
bitwise operations on bounded non-negative ints as `Nat` arithmetic
(`x & 0x3f = x % 64`, `x >> k = x / 2^k`, `x << k = x * 2^k`; `|` of
disjoint-bit operands is `+`).
-/

/-- Python exceptions raised by the modelled code. -/
inductive PyExc where
  | typeError : PyExc
  | valueError : String → PyExc
  | keyError : PyExc
  | indexError : PyExc
deriving Repr, DecidableEq

/-- A Python dynamic value handed to `encode_bytes` / `decode_bytes`:
either a byte string, a unicode string, or any other object.  The
`isinstance(source, bytes)` guard in the source distinguishes exactly the
first constructor. -/
inductive PyValue where
  | vbytes : List Nat → PyValue
  | vstr : String → PyValue
  | vint : Int → PyValue
  | vnone : PyValue
deriving Repr, DecidableEq

/-- Apply a partial function to every element; `none` if it fails anywhere.
Models a Python loop over `imap(f, xs)` in which `f` may raise. -/
def mapOrNone (f : Nat → Option Nat) : List Nat → Option (List Nat)
  | [] => some []
  | c :: rest => (f c).bind fun v => (mapOrNone f rest).map fun vs => v :: vs

/-- First index of `c` in `cm`, if present.  Models the
`dict((value, idx) for idx, value in enumerate(charmap))` lookup table
`_decode64` built by `Base64Engine.__init__` (`KeyError` = `none`). -/
def lookupIdx (cm : List Nat) (c : Nat) : Option Nat :=
  match cm with
  | [] => none
  | x :: rest => if x = c then some 0 else (lookupIdx rest c).map (· + 1)

/-- `enumerate` of a list starting at index `k`. -/
def enumIdx (k : Nat) : List Nat → List (Nat × Nat)
  | [] => []
  | c :: rest => (k, c) :: enumIdx (k + 1) rest

/-- `Base64Engine._encode_bytes_little`: 6-bit output values of the
little-endian encoding generator.  Each full chunk of three input bytes
`v1 v2 v3` yields `v1 & 0x3f`, `((v2 & 0x0f)<<2)|(v1>>6)`,
`((v3 & 0x03)<<4)|(v2>>4)`, `v3>>2`; a 1- or 2-byte tail yields the
truncated forms from the source. -/
def encode_bytes_little : List Nat → List Nat
  | [] => []
  | [v1] => [v1 % 64, v1 / 64]
  | [v1, v2] => [v1 % 64, (v2 % 16) * 4 + v1 / 64, v2 / 16]
  | v1 :: v2 :: v3 :: rest =>
    (v1 % 64) :: ((v2 % 16) * 4 + v1 / 64) :: ((v3 % 4) * 16 + v2 / 16) :: (v3 / 4) ::
      encode_bytes_little rest

/-- `Base64Engine._encode_bytes_big`: 6-bit output values of the big-endian
encoding generator.  Full chunk `v1 v2 v3` yields `v1>>2`,
`((v1&0x03)<<4)|(v2>>4)`, `((v2&0x0f)<<2)|(v3>>6)`, `v3 & 0x3f`. -/
def encode_bytes_big : List Nat → List Nat
  | [] => []
  | [v1] => [v1 / 4, (v1 % 4) * 16]
  | [v1, v2] => [v1 / 4, (v1 % 4) * 16 + v2 / 16, (v2 % 16) * 4]
  | v1 :: v2 :: v3 :: rest =>
    (v1 / 4) :: ((v1 % 4) * 16 + v2 / 16) :: ((v2 % 16) * 4 + v3 / 64) :: (v3 % 64) ::
      encode_bytes_big rest

/-- `Base64Engine._decode_bytes_little`: bytes reassembled from 6-bit values.
Full chunk `v1 v2 v3 v4` yields `v1|((v2&0x3)<<6)`, `(v2>>2)|((v3&0xF)<<4)`,
`(v3>>4)|(v4<<2)`; tails of 2 or 3 values yield the first one or two bytes.
A tail of 1 value cannot occur: `decode_bytes` rejects such lengths first. -/
def decode_bytes_little : List Nat → List Nat
  | v1 :: v2 :: v3 :: v4 :: rest =>
    (v1 + (v2 % 4) * 64) :: (v2 / 4 + (v3 % 16) * 16) :: (v3 / 16 + v4 * 4) ::
      decode_bytes_little rest
  | [v1, v2] => [v1 + (v2 % 4) * 64]
  | [v1, v2, v3] => [v1 + (v2 % 4) * 64, v2 / 4 + (v3 % 16) * 16]
  | _ => []

/-- `Base64Engine._decode_bytes_big`: big-endian counterpart.  Full chunk
yields `(v1<<2)|(v2>>4)`, `((v2&0xF)<<4)|(v3>>2)`, `((v3&0x3)<<6)|v4`. -/
def decode_bytes_big : List Nat → List Nat
  | v1 :: v2 :: v3 :: v4 :: rest =>
    (v1 * 4 + v2 / 16) :: ((v2 % 16) * 16 + v3 / 4) :: ((v3 % 4) * 64 + v4) ::
      decode_bytes_big rest
  | [v1, v2] => [v1 * 4 + v2 / 16]
  | [v1, v2, v3] => [v1 * 4 + v2 / 16, (v2 % 16) * 16 + v3 / 4]
  | _ => []

/-- A `Base64Engine` as validated by `Base64Engine.__init__`: a 64-character
alphabet with no duplicate characters (both enforced by the constructor,
which raises `ValueError` otherwise), plus the endianness flag `big`. -/
structure Base64Engine where
  bytemap : List Nat
  big : Bool
  bytemap_len : bytemap.length = 64
  bytemap_nodup : bytemap.Nodup

namespace Base64Engine

/-- `_encode64`: alphabet lookup by 6-bit value (`IndexError` = `none`). -/
def encode64 (e : Base64Engine) (v : Nat) : Option Nat :=
  e.bytemap[v]?

/-- `_decode64`: 6-bit value of a character (`KeyError` = `none`). -/
def decode64 (e : Base64Engine) (c : Nat) : Option Nat :=
  lookupIdx e.bytemap c

/-- `_encode_bytes`: endianness dispatch set up by `__init__`. -/
def encodeSyms (e : Base64Engine) (source : List Nat) : List Nat :=
  if e.big then encode_bytes_big source else encode_bytes_little source

/-- `_decode_bytes`: endianness dispatch set up by `__init__`. -/
def decodeSyms (e : Base64Engine) (syms : List Nat) : List Nat :=
  if e.big then decode_bytes_big syms else decode_bytes_little syms

/-- `Base64Engine.encode_bytes`: raises `TypeError` on non-bytes input,
otherwise runs the endianness-specific generator and maps each 6-bit value
through the alphabet (the lookup raises `IndexError` on a value ≥ 64,
which the source comments as unreachable). -/
def encode_bytes (e : Base64Engine) (source : PyValue) : Except PyExc (List Nat) :=
  match source with
  | .vbytes data =>
    match mapOrNone e.encode64 (e.encodeSyms data) with
    | some out => .ok out
    | none => .error .indexError
  | _ => .error .typeError

/-- `Base64Engine.decode_bytes`: raises `TypeError` on non-bytes input,
`ValueError` when the length is 1 mod 4, and `ValueError` when a character
is outside the alphabet (`KeyError` from `_decode64`, re-raised). -/
def decode_bytes (e : Base64Engine) (source : PyValue) : Except PyExc (List Nat) :=
  match source with
  | .vbytes data =>
    if data.length % 4 = 1 then
      .error (.valueError "input string length cannot be == 1 mod 4")
    else
      match mapOrNone e.decode64 data with
      | some syms => .ok (e.decodeSyms syms)
      | none => .error (.valueError "invalid character")
  | _ => .error .typeError

/-- `_padinfo2` bit mask: the 4 unused bits of the last character of a
string of length 2 mod 4 (`15` for big-endian, `15<<2` for little). -/
def padbits2 (e : Base64Engine) : Nat :=
  if e.big then 15 else 60

/-- `_padinfo3` bit mask: the 2 unused bits of the last character of a
string of length 3 mod 4 (`3` for big-endian, `3<<4` for little). -/
def padbits3 (e : Base64Engine) : Nat :=
  if e.big then 3 else 48

/-- `__make_padset`: characters whose 6-bit value has none of `bits` set
(`set(c for i,c in enumerate(self.bytemap) if not i & bits)`; the unicode
copies added by the source coincide with the byte values here). -/
def padset (e : Base64Engine) (bits : Nat) : List Nat :=
  (enumIdx 0 e.bytemap).filterMap fun p => if p.1 &&& bits = 0 then some p.2 else none

/-- Shared tail of `check_repair_unused` once `(mask, padset)` is chosen:
look at the last character; if it is in the pad set return the input
unchanged, else decode it, clear the pad `bits` (`& mask` with
`mask = ~bits`), re-encode, and splice the repaired character back on. -/
def repairLast (e : Base64Engine) (source : List Nat) (bits : Nat) :
    Except PyExc (Bool × List Nat) :=
  match source.getLast? with
  | none => .error .indexError
  | some last =>
    if last ∈ e.padset bits then .ok (false, source)
    else
      match lookupIdx e.bytemap last with
      | none => .error .keyError
      | some v =>
        match e.bytemap[v - (v &&& bits)]? with
        | none => .error .indexError
        | some c => .ok (true, source.dropLast ++ [c])

/-- `Base64Engine.check_repair_unused`: dispatch on `len(source) & 3`
(2 → `_padinfo2`, 3 → `_padinfo3`, 0 → unchanged, 1 → `ValueError`). -/
def check_repair_unused (e : Base64Engine) (source : List Nat) :
    Except PyExc (Bool × List Nat) :=
  if source.length % 4 = 2 then e.repairLast source e.padbits2
  else if source.length % 4 = 3 then e.repairLast source e.padbits3
  else if source.length % 4 = 0 then .ok (false, source)
  else .error (.valueError "source length must != 1 mod 4")

/-- `_encode_int`: 6-bit symbol values of the fixed-width integer encoding,
before the alphabet lookup.  With `pad = -bits % 6`: big-endian shifts
`value <<= pad` and emits `(value >> off) & 0x3f` for
`off = bits+pad-6, ..., 6, 0`; little-endian emits `(value >> off) & 0x3f`
for `off = 0, 6, ..., bits+pad-6` (padding lands in the most significant
symbol). -/
def encode_int_syms (big : Bool) (value bits : Nat) : List Nat :=
  let pad := (6 - bits % 6) % 6
  let n := (bits + pad) / 6
  if big then
    (List.range n).map fun i => (value * 2 ^ pad) / 2 ^ (bits + pad - 6 - 6 * i) % 64
  else
    (List.range n).map fun i => value / 2 ^ (6 * i) % 64

/-- `_encode_int` composed with the `_encode64` alphabet lookup, as done by
the source's final `join_byte_elems(imap(self._encode64, ...))`. -/
def encode_int (e : Base64Engine) (value bits : Nat) : Except PyExc (List Nat) :=
  match mapOrNone e.encode64 (encode_int_syms e.big value bits) with
  | some out => .ok out
  | none => .error .indexError

/-- The accumulation loop of `_decode_int`:
`for c in syms: out = (out<<6) + c`. -/
def b64fold (syms : List Nat) : Nat :=
  syms.foldl (fun out c => out * 64 + c) 0

/-- `Base64Engine._decode_int`: checks the exact length
`(bits + pad) / 6`, looks every character up in the alphabet
(`KeyError` → `ValueError`), folds MSB-first for big-endian engines and
over the reversed string otherwise, then strips the `pad` padding bits
(`out >>= pad` when big, `out &= (1<<bits)-1` when little). -/
def decode_int (e : Base64Engine) (source : List Nat) (bits : Nat) :
    Except PyExc Nat :=
  let pad := (6 - bits % 6) % 6
  let chars := (bits + pad) / 6
  if source.length ≠ chars then .error (.valueError "source must be chars long")
  else
    match mapOrNone e.decode64 source with
    | none => .error (.valueError "invalid character in string")
    | some syms =>
      let out := b64fold (if e.big then syms else syms.reverse)
      if pad ≠ 0 then
        if e.big then .ok (out / 2 ^ pad) else .ok (out % 2 ^ bits)
      else .ok out

/-- `Base64Engine.encode_int64`: range-checks `0 ≤ value ≤ 2^64 - 1`
(the lower bound is vacuous for `Nat`) then defers to `_encode_int`. -/
def encode_int64 (e : Base64Engine) (value : Nat) : Except PyExc (List Nat) :=
  if value > 0xffffffffffffffff then .error (.valueError "value out of range")
  else e.encode_int value 64

/-- `Base64Engine.decode_int64`: `_decode_int(source, 64)`. -/
def decode_int64 (e : Base64Engine) (source : List Nat) : Except PyExc Nat :=
  e.decode_int source 64

end Base64Engine

/-- `HASH64_CHARS = "./0123456789A..Za..z"` as character codes. -/
def HASH64_CHARS : List Nat :=
  [46, 47] ++ (List.range 10).map (fun i => 48 + i) ++
    (List.range 26).map (fun i => 65 + i) ++ (List.range 26).map (fun i => 97 + i)

/-- The `h64` engine: hash64 alphabet, little-endian. -/
def h64 : Base64Engine :=
  ⟨HASH64_CHARS, false, by decide, by decide⟩

/-- The `h64big` engine: hash64 alphabet, big-endian. -/
def h64big : Base64Engine :=
  ⟨HASH64_CHARS, true, by decide, by decide⟩

/-- Modelled from the spec: a handler type held by the registry
(`passlib/registry.py` is not under `src/`; only its tests are).  A handler
is identified by its scheme `name`; distinct handler types sharing a name
are distinguished by their identity `tag`. -/
structure Handler where
  name : String
  tag : Nat
deriving DecidableEq, Repr

/-- Modelled from the spec: the registry's name → handler map, newest
registration first. -/
abbrev Registry := List (String × Handler)

/-- Modelled from the spec: `get_crypt_handler` / resolution — the handler
currently registered under `name`, if any. -/
def resolve (r : Registry) (name : String) : Option Handler :=
  match r with
  | [] => none
  | (k, h) :: rest => if k = name then some h else resolve rest name

/-- Modelled from the spec: `register_crypt_handler(handler, force=False)`
"fails with a name-collision error unless `force` is set or the existing
entry is identical" (the tests expect a `KeyError`); otherwise the handler
is inserted under `handler.name` and resolution returns it. -/
def register (r : Registry) (h : Handler) (force : Bool) : Except PyExc Registry :=
  match resolve r h.name with
  | none => .ok ((h.name, h) :: r)
  | some existing =>
    if existing = h then .ok r
    else if force then .ok ((h.name, h) :: r)
    else .error .keyError

/-- Modelled from the spec: one configuration source for a policy
(`passlib/context.py` is not under `src/`; only its tests are).  Absent
fields leave the previous policy's value in place when overlaid. -/
structure PolicySource where
  schemes : Option (List String)
  dflt : Option String
  deprecated : Option (List String)

/-- Modelled from the spec: the resolved immutable policy — ordered scheme
list, default scheme name, deprecated-scheme list. -/
structure CryptPolicy where
  schemes : List String
  dflt : Option String
  deprecated : List String
deriving DecidableEq, Repr

/-- Modelled from the spec: building a policy from a single source. -/
def CryptPolicy.ofSource (s : PolicySource) : CryptPolicy :=
  ⟨s.schemes.getD [], s.dflt, s.deprecated.getD []⟩

/-- Modelled from the spec: `CryptPolicy.replace` — sources merge
left-to-right and "scheme list, default, and deprecated list replace
wholesale when present in a later source". -/
def CryptPolicy.overlay (p : CryptPolicy) (s : PolicySource) : CryptPolicy :=
  ⟨match s.schemes with
    | some l => l
    | none => p.schemes,
   match s.dflt with
    | some d => some d
    | none => p.dflt,
   match s.deprecated with
    | some l => l
    | none => p.deprecated⟩

/-- Modelled from the spec: `handler_is_deprecated(scheme)` — membership of
the scheme in the policy's deprecated list. -/
def CryptPolicy.handler_is_deprecated (p : CryptPolicy) (scheme : String) : Bool :=
  p.deprecated.contains scheme

/-- Modelled from the spec: class configuration of a Rounds-capable handler
(`HasRounds` in `passlib/utils/handlers.py` is not under `src/`; only its
tests are): bounds `min_rounds`/`max_rounds` and optional
`default_rounds`. -/
structure RoundsHandler where
  min_rounds : Int
  max_rounds : Int
  default_rounds : Option Int

/-- Modelled from the spec: the bounds check on an explicit rounds value —
"rounds must be an integer in [min_rounds, max_rounds]"; out-of-range
values raise a range error ("values are never silently clamped outside
relaxed mode"; in relaxed mode they are clamped with a warning). -/
def RoundsHandler.check_rounds (cfg : RoundsHandler) (v : Int) (relaxed : Bool) :
    Except PyExc Int :=
  if v < cfg.min_rounds then
    if relaxed then .ok cfg.min_rounds else .error (.valueError "rounds too low")
  else if v > cfg.max_rounds then
    if relaxed then .ok cfg.max_rounds else .error (.valueError "rounds too high")
  else .ok v

/-- Modelled from the spec: rounds normalization at instance construction —
"omission uses default_rounds when defaults are requested, else raises"
(a `TypeError`, per the tests, also when `default_rounds` is unset). -/
def RoundsHandler.norm_rounds (cfg : RoundsHandler) (rounds : Option Int)
    (use_defaults relaxed : Bool) : Except PyExc Int :=
  match rounds with
  | some v => cfg.check_rounds v relaxed
  | none =>
    if use_defaults then
      match cfg.default_rounds with
      | some d => cfg.check_rounds d relaxed
      | none => .error .typeError
    else .error .typeError

/-! ## Helper lemmas -/

theorem mapOrNone_length {f : Nat → Option Nat} :
    ∀ {l out : List Nat}, mapOrNone f l = some out → out.length = l.length := by
  intro l
  induction l with
  | nil => intro out h; simp [mapOrNone] at h; simp [← h]
  | cons c rest ih =>
    intro out h
    simp only [mapOrNone, Option.bind_eq_some, Option.map_eq_some'] at h
    obtain ⟨v, _, vs, hvs, rfl⟩ := h
    simp [ih hvs]

theorem mapOrNone_eq_none_iff {f : Nat → Option Nat} :
    ∀ {l : List Nat}, mapOrNone f l = none ↔ ∃ c ∈ l, f c = none := by
  intro l
  induction l with
  | nil => simp [mapOrNone]
  | cons c rest ih =>
    simp only [mapOrNone, Option.bind_eq_none, List.mem_cons]
    constructor
    · intro h
      cases hf : f c with
      | none => exact ⟨c, Or.inl rfl, hf⟩
      | some v =>
        have hm : (mapOrNone f rest).map (fun vs => v :: vs) = none := h v hf
        have hr : mapOrNone f rest = none := by
          cases hr : mapOrNone f rest with
          | none => rfl
          | some vs => rw [hr] at hm; simp at hm
        obtain ⟨c0, hc0, hfc0⟩ := ih.mp hr
        exact ⟨c0, Or.inr hc0, hfc0⟩
    · rintro ⟨c0, hc0 | hc0, hfc0⟩
      · subst hc0
        intro v hv
        rw [hfc0] at hv
        exact absurd hv (by simp)
      · intro v hv
        have : mapOrNone f rest = none := ih.mpr ⟨c0, hc0, hfc0⟩
        rw [this]; rfl

theorem lookupIdx_eq_none_iff {cm : List Nat} {c : Nat} :
    lookupIdx cm c = none ↔ c ∉ cm := by
  induction cm with
  | nil => simp [lookupIdx]
  | cons x rest ih =>
    simp only [lookupIdx, List.mem_cons]
    by_cases hx : x = c
    · simp [hx]
    · rw [if_neg hx]
      cases hr : lookupIdx rest c with
      | none =>
        have : c ∉ rest := ih.mp hr
        simp only [Option.map_none']
        constructor
        · intro _
          push_neg
          exact ⟨fun he => hx he.symm, this⟩
        · intro _; trivial
      | some v =>
        simp only [Option.map_some']
        constructor
        · intro h; exact absurd h (by simp)
        · intro h
          push_neg at h
          have : c ∉ rest := h.2
          rw [← ih, hr] at this
          exact absurd this (by simp)

theorem lookupIdx_some_spec :
    ∀ {cm : List Nat} {c v : Nat}, lookupIdx cm c = some v →
      v < cm.length ∧ cm[v]? = some c := by
  intro cm
  induction cm with
  | nil => intro c v h; simp [lookupIdx] at h
  | cons x rest ih =>
    intro c v h
    simp only [lookupIdx] at h
    by_cases hx : x = c
    · rw [if_pos hx] at h
      simp at h
      subst h
      simp [hx]
    · rw [if_neg hx] at h
      cases hr : lookupIdx rest c with
      | none => rw [hr] at h; simp at h
      | some w =>
        rw [hr] at h
        simp at h
        subst h
        obtain ⟨hw, hget⟩ := ih hr
        constructor
        · simpa using Nat.succ_lt_succ hw
        · simpa using hget

theorem lookupIdx_getElem :
    ∀ {cm : List Nat}, cm.Nodup → ∀ {i : Nat} (h : i < cm.length),
      lookupIdx cm cm[i] = some i := by
  intro cm
  induction cm with
  | nil => intro _ i h; simp at h
  | cons x rest ih =>
    intro hnd i h
    obtain ⟨hx, hrest⟩ := List.nodup_cons.mp hnd
    cases i with
    | zero => simp [lookupIdx]
    | succ j =>
      have hj : j < rest.length := by simpa using h
      have hmem : rest[j] ∈ rest := List.getElem_mem hj
      have hne : x ≠ rest[j] := fun he => hx (he ▸ hmem)
      simp only [List.getElem_cons_succ, lookupIdx, if_neg hne]
      rw [ih hrest hj]
      rfl

theorem encode_decode_syms (e : Base64Engine) :
    ∀ (syms : List Nat), (∀ v ∈ syms, v < 64) →
      ∃ chars, mapOrNone e.encode64 syms = some chars ∧
        mapOrNone e.decode64 chars = some syms ∧
        chars.length = syms.length := by
  intro syms
  induction syms with
  | nil => intro _; exact ⟨[], by simp [mapOrNone], by simp [mapOrNone], rfl⟩
  | cons v rest ih =>
    intro h
    have hv : v < e.bytemap.length := by
      rw [e.bytemap_len]; exact h v (by simp)
    obtain ⟨chars, henc, hdec, hlen⟩ := ih (fun w hw => h w (by simp [hw]))
    refine ⟨e.bytemap[v] :: chars, ?_, ?_, by simp [hlen]⟩
    · simp only [mapOrNone, Base64Engine.encode64]
      rw [List.getElem?_eq_getElem hv, henc]
      rfl
    · simp only [mapOrNone, Base64Engine.decode64]
      rw [lookupIdx_getElem e.bytemap_nodup hv, hdec]
      rfl

/-! ## Byte-level codec lemmas -/

theorem encode_little_bound : ∀ (b : List Nat), (∀ x ∈ b, x < 256) →
    ∀ v ∈ encode_bytes_little b, v < 64
  | [], _ => by simp [encode_bytes_little]
  | [v1], h => by
    have h1 : v1 < 256 := h v1 (by simp)
    simp only [encode_bytes_little, List.mem_cons, List.not_mem_nil, or_false]
    rintro v (rfl | rfl) <;> omega
  | [v1, v2], h => by
    have h1 : v1 < 256 := h v1 (by simp)
    have h2 : v2 < 256 := h v2 (by simp)
    simp only [encode_bytes_little, List.mem_cons, List.not_mem_nil, or_false]
    rintro v (rfl | rfl | rfl) <;> omega
  | v1 :: v2 :: v3 :: rest, h => by
    have h1 : v1 < 256 := h v1 (by simp)
    have h2 : v2 < 256 := h v2 (by simp)
    have h3 : v3 < 256 := h v3 (by simp)
    have ih := encode_little_bound rest (fun x hx => h x (by simp [hx]))
    simp only [encode_bytes_little, List.mem_cons]
    rintro v (rfl | rfl | rfl | rfl | hv)
    · omega
    · omega
    · omega
    · omega
    · exact ih v hv

theorem encode_big_bound : ∀ (b : List Nat), (∀ x ∈ b, x < 256) →
    ∀ v ∈ encode_bytes_big b, v < 64
  | [], _ => by simp [encode_bytes_big]
  | [v1], h => by
    have h1 : v1 < 256 := h v1 (by simp)
    simp only [encode_bytes_big, List.mem_cons, List.not_mem_nil, or_false]
    rintro v (rfl | rfl) <;> omega
  | [v1, v2], h => by
    have h1 : v1 < 256 := h v1 (by simp)
    have h2 : v2 < 256 := h v2 (by simp)
    simp only [encode_bytes_big, List.mem_cons, List.not_mem_nil, or_false]
    rintro v (rfl | rfl | rfl) <;> omega
  | v1 :: v2 :: v3 :: rest, h => by
    have h1 : v1 < 256 := h v1 (by simp)
    have h2 : v2 < 256 := h v2 (by simp)
    have h3 : v3 < 256 := h v3 (by simp)
    have ih := encode_big_bound rest (fun x hx => h x (by simp [hx]))
    simp only [encode_bytes_big, List.mem_cons]
    rintro v (rfl | rfl | rfl | rfl | hv)
    · omega
    · omega
    · omega
    · omega
    · exact ih v hv

theorem encode_little_len_mod : ∀ (b : List Nat),
    (encode_bytes_little b).length % 4 ≠ 1
  | [] => by simp [encode_bytes_little]
  | [v1] => by simp [encode_bytes_little]
  | [v1, v2] => by simp [encode_bytes_little]
  | v1 :: v2 :: v3 :: rest => by
    have ih := encode_little_len_mod rest
    simp only [encode_bytes_little, List.length_cons] at ih ⊢
    omega

theorem encode_big_len_mod : ∀ (b : List Nat),
    (encode_bytes_big b).length % 4 ≠ 1
  | [] => by simp [encode_bytes_big]
  | [v1] => by simp [encode_bytes_big]
  | [v1, v2] => by simp [encode_bytes_big]
  | v1 :: v2 :: v3 :: rest => by
    have ih := encode_big_len_mod rest
    simp only [encode_bytes_big, List.length_cons] at ih ⊢
    omega

theorem decode_encode_little : ∀ (b : List Nat), (∀ x ∈ b, x < 256) →
    decode_bytes_little (encode_bytes_little b) = b
  | [], _ => rfl
  | [v1], h => by
    have h1 : v1 < 256 := h v1 (by simp)
    simp only [encode_bytes_little, decode_bytes_little]
    have : v1 % 64 + v1 / 64 % 4 * 64 = v1 := by omega
    rw [this]
  | [v1, v2], h => by
    have h1 : v1 < 256 := h v1 (by simp)
    have h2 : v2 < 256 := h v2 (by simp)
    simp only [encode_bytes_little, decode_bytes_little, List.cons.injEq, and_true]
    exact ⟨by omega, by omega⟩
  | v1 :: v2 :: v3 :: rest, h => by
    have h1 : v1 < 256 := h v1 (by simp)
    have h2 : v2 < 256 := h v2 (by simp)
    have h3 : v3 < 256 := h v3 (by simp)
    have ih := decode_encode_little rest (fun x hx => h x (by simp [hx]))
    simp only [encode_bytes_little, decode_bytes_little, List.cons.injEq]
    refine ⟨by omega, by omega, by omega, ih⟩

theorem decode_encode_big : ∀ (b : List Nat), (∀ x ∈ b, x < 256) →
    decode_bytes_big (encode_bytes_big b) = b
  | [], _ => rfl
  | [v1], h => by
    have h1 : v1 < 256 := h v1 (by simp)
    simp only [encode_bytes_big, decode_bytes_big]
    have : v1 / 4 * 4 + v1 % 4 * 16 / 16 = v1 := by omega
    rw [this]
  | [v1, v2], h => by
    have h1 : v1 < 256 := h v1 (by simp)
    have h2 : v2 < 256 := h v2 (by simp)
    simp only [encode_bytes_big, decode_bytes_big, List.cons.injEq, and_true]
    exact ⟨by omega, by omega⟩
  | v1 :: v2 :: v3 :: rest, h => by
    have h1 : v1 < 256 := h v1 (by simp)
    have h2 : v2 < 256 := h v2 (by simp)
    have h3 : v3 < 256 := h v3 (by simp)
    have ih := decode_encode_big rest (fun x hx => h x (by simp [hx]))
    simp only [encode_bytes_big, decode_bytes_big, List.cons.injEq]
    refine ⟨by omega, by omega, by omega, ih⟩

/-! ## Engine-level bridges -/

theorem encodeSyms_bound (e : Base64Engine) (b : List Nat) (hb : ∀ x ∈ b, x < 256) :
    ∀ v ∈ e.encodeSyms b, v < 64 := by
  cases hbig : e.big with
  | false => simpa [Base64Engine.encodeSyms, hbig] using encode_little_bound b hb
  | true => simpa [Base64Engine.encodeSyms, hbig] using encode_big_bound b hb

theorem encodeSyms_len_mod (e : Base64Engine) (b : List Nat) :
    (e.encodeSyms b).length % 4 ≠ 1 := by
  cases hbig : e.big with
  | false => simpa [Base64Engine.encodeSyms, hbig] using encode_little_len_mod b
  | true => simpa [Base64Engine.encodeSyms, hbig] using encode_big_len_mod b

theorem decodeSyms_encodeSyms (e : Base64Engine) (b : List Nat) (hb : ∀ x ∈ b, x < 256) :
    e.decodeSyms (e.encodeSyms b) = b := by
  cases hbig : e.big with
  | false =>
    simpa [Base64Engine.decodeSyms, Base64Engine.encodeSyms, hbig] using
      decode_encode_little b hb
  | true =>
    simpa [Base64Engine.decodeSyms, Base64Engine.encodeSyms, hbig] using
      decode_encode_big b hb

/-! ## Byte-codec claims -/

/-- Claim C1: for every byte string `b` and for each of the two endianness
settings of a `Base64Engine` built from a valid 64-character alphabet,
`decode_bytes(encode_bytes(b))` returns `b`. -/
theorem C1_decode_encode_bytes (e : Base64Engine) (b : List Nat)
    (hb : ∀ x ∈ b, x < 256) :
    ∃ enc, e.encode_bytes (.vbytes b) = .ok enc ∧
      e.decode_bytes (.vbytes enc) = .ok b := by
  obtain ⟨chars, henc, hdec, hlen⟩ :=
    encode_decode_syms e (e.encodeSyms b) (encodeSyms_bound e b hb)
  refine ⟨chars, ?_, ?_⟩
  · simp only [Base64Engine.encode_bytes]
    rw [henc]
  · simp only [Base64Engine.decode_bytes]
    have hlen4 : ¬ chars.length % 4 = 1 := by
      rw [hlen]; exact encodeSyms_len_mod e b
    rw [if_neg hlen4, hdec]
    exact congrArg Except.ok (decodeSyms_encodeSyms e b hb)

/-- Witness for C1 at a concrete engine and byte string. -/
theorem C1_decode_encode_bytes_witness :
    ∃ enc, h64big.encode_bytes (.vbytes [1, 2, 3, 250]) = .ok enc ∧
      h64big.decode_bytes (.vbytes enc) = .ok [1, 2, 3, 250] :=
  C1_decode_encode_bytes h64big [1, 2, 3, 250] (by decide)

/-- Claim C5: `encode_bytes` of the empty byte string is the empty string,
and `decode_bytes` of the empty string is the empty byte string. -/
theorem C5_empty_roundtrip (e : Base64Engine) :
    e.encode_bytes (.vbytes []) = .ok [] ∧ e.decode_bytes (.vbytes []) = .ok [] := by
  constructor
  · cases hbig : e.big with
    | false =>
      simp [Base64Engine.encode_bytes, Base64Engine.encodeSyms, hbig,
        encode_bytes_little, mapOrNone]
    | true =>
      simp [Base64Engine.encode_bytes, Base64Engine.encodeSyms, hbig,
        encode_bytes_big, mapOrNone]
  · cases hbig : e.big with
    | false =>
      simp [Base64Engine.decode_bytes, Base64Engine.decodeSyms, hbig,
        decode_bytes_little, mapOrNone]
    | true =>
      simp [Base64Engine.decode_bytes, Base64Engine.decodeSyms, hbig,
        decode_bytes_big, mapOrNone]

/-- Claim C10: every 6-bit value produced by the little-endian and
big-endian encoding generators on a byte string lies in `[0, 64)`, so the
alphabet lookup performed by `encode_bytes` is always in bounds and the
`IndexError` branch is unreachable. -/
theorem C10_encode_syms_in_range (b : List Nat) (hb : ∀ x ∈ b, x < 256) :
    (∀ v ∈ encode_bytes_little b, v < 64) ∧
    (∀ v ∈ encode_bytes_big b, v < 64) ∧
    ∀ e : Base64Engine, ∃ out, e.encode_bytes (.vbytes b) = .ok out := by
  refine ⟨encode_little_bound b hb, encode_big_bound b hb, fun e => ?_⟩
  obtain ⟨chars, henc, _, _⟩ :=
    encode_decode_syms e (e.encodeSyms b) (encodeSyms_bound e b hb)
  refine ⟨chars, ?_⟩
  simp only [Base64Engine.encode_bytes]
  rw [henc]

/-- Witness for C10 at a concrete byte string. -/
theorem C10_encode_syms_in_range_witness :
    (∀ v ∈ encode_bytes_little [0, 255], v < 64) ∧
    (∀ v ∈ encode_bytes_big [0, 255], v < 64) ∧
    ∀ e : Base64Engine, ∃ out, e.encode_bytes (.vbytes [0, 255]) = .ok out :=
  C10_encode_syms_in_range [0, 255] (by decide)

/-- Claim C3: `decode_bytes` fails with an encoding error exactly when the
input's length is 1 mod 4 or the input contains a symbol outside the
engine's alphabet; all other inputs made of alphabet symbols succeed. -/
theorem C3_decode_bytes_error_iff (e : Base64Engine) (b : List Nat) :
    (∃ err, e.decode_bytes (.vbytes b) = .error err) ↔
      (b.length % 4 = 1 ∨ ∃ c ∈ b, c ∉ e.bytemap) := by
  simp only [Base64Engine.decode_bytes]
  by_cases h4 : b.length % 4 = 1
  · simp [h4]
  · rw [if_neg h4]
    cases hm : mapOrNone e.decode64 b with
    | some syms =>
      constructor
      · rintro ⟨err, herr⟩
        exact absurd herr (by simp)
      · rintro (h | ⟨c, hc, hcm⟩)
        · exact absurd h h4
        · exfalso
          have hnone : mapOrNone e.decode64 b = none :=
            mapOrNone_eq_none_iff.mpr
              ⟨c, hc, by simpa [Base64Engine.decode64] using lookupIdx_eq_none_iff.mpr hcm⟩
          rw [hm] at hnone
          exact absurd hnone (by simp)
    | none =>
      constructor
      · intro _
        right
        obtain ⟨c, hc, hfc⟩ := mapOrNone_eq_none_iff.mp hm
        exact ⟨c, hc, lookupIdx_eq_none_iff.mp (by simpa [Base64Engine.decode64] using hfc)⟩
      · intro _
        exact ⟨.valueError "invalid character", rfl⟩

/-- Claim C9: `encode_bytes` and `decode_bytes` raise a `TypeError` on any
input value that is not a byte string (unicode strings included). -/
theorem C9_non_bytes_type_error (e : Base64Engine) (v : PyValue)
    (hv : ∀ d, v ≠ .vbytes d) :
    e.encode_bytes v = .error .typeError ∧ e.decode_bytes v = .error .typeError := by
  cases v with
  | vbytes d => exact absurd rfl (hv d)
  | vstr s => exact ⟨rfl, rfl⟩
  | vint n => exact ⟨rfl, rfl⟩
  | vnone => exact ⟨rfl, rfl⟩

/-- Witness for C9 at the empty unicode string. -/
theorem C9_non_bytes_type_error_witness :
    h64.encode_bytes (.vstr "") = .error .typeError ∧
      h64.decode_bytes (.vstr "") = .error .typeError :=
  C9_non_bytes_type_error h64 (.vstr "") (fun _ h => PyValue.noConfusion h)

/-! ## Integer codec lemmas -/

open Base64Engine

theorem b64fold_append_one (l : List Nat) (a : Nat) :
    b64fold (l ++ [a]) = b64fold l * 64 + a := by
  simp [b64fold, List.foldl_append]

theorem b64fold_little : ∀ (n v : Nat),
    b64fold (((List.range n).map fun i => v / 2 ^ (6 * i) % 64).reverse)
      = v % 2 ^ (6 * n) := by
  intro n
  induction n with
  | zero => intro v; simp [b64fold, Nat.mod_one]
  | succ m ih =>
    intro v
    have hmap : (List.range (m + 1)).map (fun i => v / 2 ^ (6 * i) % 64)
        = (v % 64) :: (List.range m).map (fun i => (v / 64) / 2 ^ (6 * i) % 64) := by
      rw [List.range_succ_eq_map, List.map_cons, List.map_map]
      refine congrArg₂ List.cons (by simp) ?_
      apply List.map_congr_left
      intro i _
      simp only [Function.comp_apply]
      rw [show 6 * (i + 1) = 6 + 6 * i by ring, pow_add, ← Nat.div_div_eq_div_mul]
      norm_num
    rw [hmap, List.reverse_cons, b64fold_append_one, ih]
    have hsplit : v % 2 ^ (6 * (m + 1)) = v % 64 + 64 * (v / 64 % 2 ^ (6 * m)) := by
      rw [show 6 * (m + 1) = 6 + 6 * m by ring, pow_add]
      rw [show (2:Nat) ^ 6 = 64 by norm_num]
      exact Nat.mod_mul
    omega

theorem b64fold_big : ∀ (n v : Nat),
    b64fold ((List.range n).map fun i => v / 2 ^ (6 * (n - 1 - i)) % 64)
      = v % 2 ^ (6 * n) := by
  intro n
  induction n with
  | zero => intro v; simp [b64fold, Nat.mod_one]
  | succ m ih =>
    intro v
    have hmap : (List.range (m + 1)).map (fun i => v / 2 ^ (6 * (m + 1 - 1 - i)) % 64)
        = ((List.range m).map fun i => (v / 64) / 2 ^ (6 * (m - 1 - i)) % 64) ++ [v % 64] := by
      rw [List.range_succ, List.map_append, List.map_cons]
      refine congrArg₂ List.append ?_ (by simp)
      apply List.map_congr_left
      intro i hi
      have him : i < m := List.mem_range.mp hi
      rw [show 6 * (m + 1 - 1 - i) = 6 + 6 * (m - 1 - i) by omega, pow_add,
        ← Nat.div_div_eq_div_mul]
      norm_num
    rw [hmap, b64fold_append_one, ih]
    have hsplit : v % 2 ^ (6 * (m + 1)) = v % 64 + 64 * (v / 64 % 2 ^ (6 * m)) := by
      rw [show 6 * (m + 1) = 6 + 6 * m by ring, pow_add]
      rw [show (2:Nat) ^ 6 = 64 by norm_num]
      exact Nat.mod_mul
    omega

theorem encode_int_syms_little_64 (n : Nat) :
    encode_int_syms false n 64 = (List.range 11).map fun i => n / 2 ^ (6 * i) % 64 := by
  simp [encode_int_syms]

theorem encode_int_syms_big_64 (n : Nat) :
    encode_int_syms true n 64
      = (List.range 11).map fun i => (n * 4) / 2 ^ (6 * (11 - 1 - i)) % 64 := by
  simp only [encode_int_syms]
  norm_num
  intro a ha
  have he : (60 : Nat) - 6 * a = 6 * (10 - a) := by omega
  rw [he]

theorem encode_int_syms_bound_64 (big : Bool) (n : Nat) :
    ∀ v ∈ encode_int_syms big n 64, v < 64 := by
  cases big with
  | false =>
    rw [encode_int_syms_little_64]
    intro v hv
    obtain ⟨i, _, rfl⟩ := List.mem_map.mp hv
    exact Nat.mod_lt _ (by norm_num)
  | true =>
    rw [encode_int_syms_big_64]
    intro v hv
    obtain ⟨i, _, rfl⟩ := List.mem_map.mp hv
    exact Nat.mod_lt _ (by norm_num)

theorem encode_int_syms_len_64 (big : Bool) (n : Nat) :
    (encode_int_syms big n 64).length = 11 := by
  cases big with
  | false => rw [encode_int_syms_little_64]; simp
  | true => rw [encode_int_syms_big_64]; simp

theorem decode_int64_eval (e : Base64Engine) (source syms : List Nat)
    (h11 : source.length = 11)
    (hm : mapOrNone e.decode64 source = some syms) :
    e.decode_int64 source =
      .ok (if e.big then b64fold syms / 4 else b64fold syms.reverse % 2 ^ 64) := by
  unfold Base64Engine.decode_int64 Base64Engine.decode_int
  norm_num [h11, hm]
  cases hbig : e.big with
  | false => norm_num
  | true => norm_num

/-- Claim C2: for every `n` with `0 ≤ n < 2^64`,
`decode_int64(encode_int64(n)) = n` for an engine of either endianness,
and every `n ≥ 2^64` makes `encode_int64` raise a range error. -/
theorem C2_encode_decode_int64 (e : Base64Engine) (n : Nat) :
    (n < 2 ^ 64 → ∃ enc, e.encode_int64 n = .ok enc ∧ e.decode_int64 enc = .ok n) ∧
    (2 ^ 64 ≤ n → e.encode_int64 n = .error (.valueError "value out of range")) := by
  constructor
  · intro hn
    obtain ⟨chars, henc, hdec, hlen⟩ :=
      encode_decode_syms e (encode_int_syms e.big n 64) (encode_int_syms_bound_64 e.big n)
    have hlen11 : chars.length = 11 := by rw [hlen, encode_int_syms_len_64]
    refine ⟨chars, ?_, ?_⟩
    · have hok : ¬ n > 0xffffffffffffffff := by omega
      simp only [Base64Engine.encode_int64, if_neg hok, Base64Engine.encode_int]
      rw [henc]
    · rw [decode_int64_eval e chars (encode_int_syms e.big n 64) hlen11 hdec]
      cases hbig : e.big with
      | false =>
        rw [if_neg (by simp), encode_int_syms_little_64, b64fold_little]
        have h66 : n % 2 ^ (6 * 11) = n := Nat.mod_eq_of_lt (lt_trans hn (by norm_num))
        rw [h66, Nat.mod_eq_of_lt hn]
      | true =>
        rw [if_pos rfl, encode_int_syms_big_64, b64fold_big]
        have h66 : n * 4 % 2 ^ (6 * 11) = n * 4 := by
          refine Nat.mod_eq_of_lt ?_
          have : n * 4 < 2 ^ 64 * 4 := by omega
          calc n * 4 < 2 ^ 64 * 4 := this
            _ = 2 ^ (6 * 11) := by norm_num
        rw [h66]
        congr 1
        omega
  · intro hn
    have hbad : n > 0xffffffffffffffff := by omega
    simp [Base64Engine.encode_int64, hbad]

/-- Witness for C2 at concrete values on both sides of the range bound. -/
theorem C2_encode_decode_int64_witness :
    (∃ enc, h64.encode_int64 5 = .ok enc ∧ h64.decode_int64 enc = .ok 5) ∧
      h64big.encode_int64 (2 ^ 64) = .error (.valueError "value out of range") :=
  ⟨(C2_encode_decode_int64 h64 5).1 (by norm_num),
   (C2_encode_decode_int64 h64big (2 ^ 64)).2 (by norm_num)⟩

/-! ## check_repair_unused lemmas -/

theorem mem_enumIdx : ∀ (cm : List Nat) (k : Nat) (p : Nat × Nat),
    p ∈ enumIdx k cm ↔ ∃ j, j < cm.length ∧ p.1 = k + j ∧ cm[j]? = some p.2 := by
  intro cm
  induction cm with
  | nil => intro k p; simp [enumIdx]
  | cons x rest ih =>
    intro k p
    simp only [enumIdx, List.mem_cons, ih (k + 1) p]
    constructor
    · rintro (rfl | ⟨j, hj, hp1, hget⟩)
      · exact ⟨0, by simp, by simp, by simp⟩
      · exact ⟨j + 1, by simpa using hj, by omega, by simpa using hget⟩
    · rintro ⟨j, hj, hp1, hget⟩
      cases j with
      | zero =>
        left
        simp only [List.getElem?_cons_zero, Option.some.injEq] at hget
        obtain ⟨p1, p2⟩ := p
        simp at hp1 hget
        simp [hp1, ← hget]
      | succ i =>
        right
        exact ⟨i, by simpa using hj, by omega, by simpa using hget⟩

theorem mem_padset (e : Base64Engine) (bits c : Nat) :
    c ∈ e.padset bits ↔ ∃ v, lookupIdx e.bytemap c = some v ∧ v &&& bits = 0 := by
  simp only [Base64Engine.padset, List.mem_filterMap]
  constructor
  · rintro ⟨p, hp, hfp⟩
    obtain ⟨j, hj, hp1, hget⟩ := (mem_enumIdx e.bytemap 0 p).mp hp
    by_cases hb : p.1 &&& bits = 0
    · rw [if_pos hb] at hfp
      have hc : e.bytemap[j] = c := by
        have := List.getElem?_eq_getElem hj
        rw [this] at hget
        simp only [Option.some.injEq] at hget
        rw [hget]
        simpa using hfp
      refine ⟨j, ?_, ?_⟩
      · rw [← hc]; exact lookupIdx_getElem e.bytemap_nodup hj
      · rw [show j = p.1 by omega]; exact hb
    · rw [if_neg hb] at hfp; exact absurd hfp (by simp)
  · rintro ⟨v, hv, hb⟩
    obtain ⟨hvlt, hget⟩ := lookupIdx_some_spec hv
    refine ⟨(v, c), (mem_enumIdx e.bytemap 0 (v, c)).mpr ⟨v, hvlt, by simp, hget⟩, ?_⟩
    simp [hb]

theorem clear_bits_fact : ∀ bits ∈ [3, 15, 48, 60], ∀ v < 64,
    (v - (v &&& bits)) &&& bits = 0 ∧ (v - (v &&& bits)) + (v &&& bits) = v := by
  decide

theorem repairLast_spec (e : Base64Engine) (s : List Nat) (tl v bits : Nat)
    (hlast : s.getLast? = some tl) (hv : e.decode64 tl = some v)
    (hbits : bits ∈ [3, 15, 48, 60]) :
    (v &&& bits = 0 → e.repairLast s bits = .ok (false, s)) ∧
    (v &&& bits ≠ 0 →
      ∃ c, e.encode64 (v - (v &&& bits)) = some c ∧
        e.decode64 c = some (v - (v &&& bits)) ∧
        (v - (v &&& bits)) &&& bits = 0 ∧
        (v - (v &&& bits)) + (v &&& bits) = v ∧
        e.repairLast s bits = .ok (true, s.dropLast ++ [c])) := by
  have hv' : lookupIdx e.bytemap tl = some v := hv
  obtain ⟨hvlt, _⟩ := lookupIdx_some_spec hv'
  have hv64 : v < 64 := by rw [e.bytemap_len] at hvlt; exact hvlt
  have hmemiff : tl ∈ e.padset bits ↔ v &&& bits = 0 := by
    rw [mem_padset]
    constructor
    · rintro ⟨w, hw, hwb⟩
      rw [hv'] at hw
      simp only [Option.some.injEq] at hw
      rw [hw]
      exact hwb
    · intro hb
      exact ⟨v, hv', hb⟩
  constructor
  · intro hb
    simp only [Base64Engine.repairLast, hlast]
    rw [if_pos (hmemiff.mpr hb)]
  · intro hb
    obtain ⟨hcl, hsum⟩ := clear_bits_fact bits hbits v hv64
    have hlt : v - (v &&& bits) < e.bytemap.length := by
      rw [e.bytemap_len]; omega
    refine ⟨e.bytemap[v - (v &&& bits)], ?_, ?_, hcl, hsum, ?_⟩
    · exact List.getElem?_eq_getElem hlt
    · exact lookupIdx_getElem e.bytemap_nodup hlt
    · simp only [Base64Engine.repairLast, hlast]
      rw [if_neg (fun hmem => hb (hmemiff.mp hmem)), hv']
      simp only [List.getElem?_eq_getElem hlt]

/-- Claim C4: for an encoded string whose length mod 4 is 2 or 3,
`check_repair_unused(s)` returns `(False, s)` exactly when the "don't
care" padding bits of the final symbol are zero; otherwise it returns
`(True, s')` where `s'` is `s` with only those padding bits of the final
symbol cleared; strings whose length is a multiple of 4 come back
unchanged as `(False, s)`. -/
theorem C4_check_repair_unused (e : Base64Engine) (s : List Nat) :
    (s.length % 4 = 0 → e.check_repair_unused s = .ok (false, s)) ∧
    (∀ tl v bits,
      (s.length % 4 = 2 ∧ bits = e.padbits2) ∨ (s.length % 4 = 3 ∧ bits = e.padbits3) →
      s.getLast? = some tl → e.decode64 tl = some v →
      (v &&& bits = 0 → e.check_repair_unused s = .ok (false, s)) ∧
      (v &&& bits ≠ 0 →
        ∃ c, e.encode64 (v - (v &&& bits)) = some c ∧
          e.decode64 c = some (v - (v &&& bits)) ∧
          (v - (v &&& bits)) &&& bits = 0 ∧
          (v - (v &&& bits)) + (v &&& bits) = v ∧
          e.check_repair_unused s = .ok (true, s.dropLast ++ [c]))) := by
  constructor
  · intro h0
    simp [Base64Engine.check_repair_unused, h0]
  · intro tl v bits h23 hlast hv
    rcases h23 with ⟨h2, rfl⟩ | ⟨h3, rfl⟩
    · have hbmem : e.padbits2 ∈ [3, 15, 48, 60] := by
        unfold Base64Engine.padbits2
        cases hb : e.big <;> simp
      have hcru : e.check_repair_unused s = e.repairLast s e.padbits2 := by
        simp [Base64Engine.check_repair_unused, h2]
      rw [hcru]
      exact repairLast_spec e s tl v e.padbits2 hlast hv hbmem
    · have hbmem : e.padbits3 ∈ [3, 15, 48, 60] := by
        unfold Base64Engine.padbits3
        cases hb : e.big <;> simp
      have hcru : e.check_repair_unused s = e.repairLast s e.padbits3 := by
        simp [Base64Engine.check_repair_unused, h3]
      rw [hcru]
      exact repairLast_spec e s tl v e.padbits3 hlast hv hbmem

/-- Witness for C4: a clean multiple-of-4 string, and a dirty 2-mod-4
string whose final character has nonzero padding bits. -/
theorem C4_check_repair_unused_witness :
    h64.check_repair_unused [46, 46, 46, 46] = .ok (false, [46, 46, 46, 46]) ∧
    (∃ c, h64.encode64 (63 - (63 &&& h64.padbits2)) = some c ∧
      h64.decode64 c = some (63 - (63 &&& h64.padbits2)) ∧
      (63 - (63 &&& h64.padbits2)) &&& h64.padbits2 = 0 ∧
      (63 - (63 &&& h64.padbits2)) + (63 &&& h64.padbits2) = 63 ∧
      h64.check_repair_unused [46, 122] = .ok (true, [46, 122].dropLast ++ [c])) :=
  ⟨(C4_check_repair_unused h64 [46, 46, 46, 46]).1 (by decide),
   ((C4_check_repair_unused h64 [46, 122]).2 122 63 h64.padbits2
      (Or.inl ⟨by decide, rfl⟩) (by decide) (by decide)).2 (by decide)⟩

/-! ## Registry / policy / rounds claims (spec-modelled components) -/

/-- Claim C6 (spec-modelled): with some handler registered under a name,
registering a different handler type under the same name without `force`
raises a collision error and the name still resolves to the first handler;
re-registering the identical handler succeeds; registering the second with
`force=True` succeeds and resolution thereafter returns the second. -/
theorem C6_register_collision (r : Registry) (h1 h2 : Handler)
    (hres : resolve r h1.name = some h1) (hname : h2.name = h1.name)
    (hne : h2 ≠ h1) :
    register r h2 false = .error .keyError ∧
    resolve r h2.name = some h1 ∧
    register r h1 false = .ok r ∧
    ∃ r2, register r h2 true = .ok r2 ∧ resolve r2 h2.name = some h2 := by
  have hres2 : resolve r h2.name = some h1 := by rw [hname]; exact hres
  refine ⟨?_, hres2, ?_, (h2.name, h2) :: r, ?_, ?_⟩
  · simp only [register, hres2]
    rw [if_neg (fun he => hne he.symm)]
    rfl
  · simp [register, hres]
  · simp only [register, hres2]
    rw [if_neg (fun he => hne he.symm)]
    rfl
  · simp [resolve]

/-- Witness for C6 with two concrete handler types sharing the name "a". -/
theorem C6_register_collision_witness :
    register [("a", ⟨"a", 0⟩)] ⟨"a", 1⟩ false = .error .keyError ∧
    resolve [("a", ⟨"a", 0⟩)] "a" = some ⟨"a", 0⟩ ∧
    register [("a", ⟨"a", 0⟩)] ⟨"a", 0⟩ false = .ok [("a", ⟨"a", 0⟩)] ∧
    ∃ r2, register [("a", ⟨"a", 0⟩)] ⟨"a", 1⟩ true = .ok r2 ∧
      resolve r2 "a" = some ⟨"a", 1⟩ :=
  C6_register_collision [("a", ⟨"a", 0⟩)] ⟨"a", 0⟩ ⟨"a", 1⟩ (by decide) rfl (by decide)

/-- Claim C7 (spec-modelled): for the policy built from
`schemes=["a","b"], default="a", deprecated=["a"]`, scheme "a" is
deprecated and "b" is not; overlaying a source that only sets
`default="b"` keeps the scheme list `["a","b"]` and changes the default
to "b". -/
theorem C7_policy_overlay :
    (CryptPolicy.ofSource ⟨some ["a", "b"], some "a", some ["a"]⟩).handler_is_deprecated "a"
        = true ∧
    (CryptPolicy.ofSource ⟨some ["a", "b"], some "a", some ["a"]⟩).handler_is_deprecated "b"
        = false ∧
    ((CryptPolicy.ofSource ⟨some ["a", "b"], some "a", some ["a"]⟩).overlay
        ⟨none, some "b", none⟩).schemes = ["a", "b"] ∧
    ((CryptPolicy.ofSource ⟨some ["a", "b"], some "a", some ["a"]⟩).overlay
        ⟨none, some "b", none⟩).dflt = some "b" := by
  decide

/-- Claim C8 (spec-modelled): a Rounds-capable handler rejects an explicit
`rounds` of `min_rounds - 1` with a range error, and with `use_defaults`
and no explicit rounds it normalizes to `default_rounds`. -/
theorem C8_rounds_normalization (cfg : RoundsHandler) (d : Int)
    (hd : cfg.default_rounds = some d)
    (hmin : cfg.min_rounds ≤ d) (hmax : d ≤ cfg.max_rounds) :
    cfg.norm_rounds (some (cfg.min_rounds - 1)) false false
        = .error (.valueError "rounds too low") ∧
    cfg.norm_rounds none true false = .ok d := by
  constructor
  · simp only [RoundsHandler.norm_rounds, RoundsHandler.check_rounds]
    rw [if_pos (by omega)]
    rfl
  · have hstep : cfg.norm_rounds none true false = cfg.check_rounds d false := by
      simp [RoundsHandler.norm_rounds, hd]
    rw [hstep]
    simp only [RoundsHandler.check_rounds]
    rw [if_neg (by omega), if_neg (by omega)]

/-- Witness for C8 with the bounds of the test handler
(`min_rounds=1`, `max_rounds=3`, `default_rounds=2`). -/
theorem C8_rounds_normalization_witness :
    (RoundsHandler.mk 1 3 (some 2)).norm_rounds (some ((1 : Int) - 1)) false false
        = .error (.valueError "rounds too low") ∧
    (RoundsHandler.mk 1 3 (some 2)).norm_rounds none true false = .ok 2 :=
  C8_rounds_normalization ⟨1, 3, some 2⟩ 2 rfl (by norm_num) (by norm_num)
